import Mathlib

/-!
# Verification of `model/train_nmt.py`

Shallow embedding of the attention-NMT training/inference script
(`src/model/train_nmt.py`) and proofs about its claims.

Modelling conventions:
* sentences are Lean `String`s; token ids are `Nat`;
* numpy arrays are nested `List`s; one-hot entries are `Nat` (0/1);
* logits are values of an arbitrary linearly ordered type `V`
  (the claims only depend on the argmax, never on float arithmetic);
* the external keras models (`encoder_model.predict`,
  `decoder_model.predict`, `train_on_batch`, `evaluate`) are oracles:
  they are parameters of the embedded functions, and the embedding
  records the exact arguments the script passes to them;
* `np.random.shuffle` is modelled by an arbitrary permutation parameter.
-/

namespace TrainNmt

/-! ## Word splitting (Python `str.split()` on spaces)

Used to talk about "whitespace-separated words" of the translation
string built by `infer_nmt`, and about standalone tokens of the
wrapped French sentences of `get_data`. -/

/-- Split a character list into maximal nonempty runs of non-space
characters; `acc` is the (possibly empty) word currently being read. -/
def splitWordsAux : List Char → List Char → List (List Char)
  | [], acc => if acc = [] then [] else [acc]
  | c :: cs, acc =>
    if c = ' ' then
      (if acc = [] then splitWordsAux cs [] else acc :: splitWordsAux cs [])
    else splitWordsAux cs (acc ++ [c])

/-- The whitespace-separated words of a string (Python `s.split()`,
with a space as the only whitespace character, as in this corpus). -/
def strWords (s : String) : List String :=
  (splitWordsAux s.data []).map String.mk

/-! ## `get_data` (lines 17–38) -/

/-- Line 24 of `get_data`: wrap a French sentence with sos/eos markers.
`sent.endswith('.')` is embedded as the last character being `'.'`, and
`sent[:-1]` as `dropLast` on the character list. -/
def wrap_fr (sent : String) : String :=
  if sent.data.getLast? = some '.' then
    "sos " ++ String.mk sent.data.dropLast ++ "eos ."
  else
    "sos " ++ sent ++ " eos ."

/-- Lines 26–38 of `get_data`: wrap the French corpus, shuffle the index
range, and split it at `train_size`.  The result of `np.random.shuffle`
on `np.arange(len(en_text))` is the parameter `inds` (a permutation of
`List.range en_text.length`); `en_text[ti]` is embedded as `getD ti ""`. -/
def get_data (en_text fr_text : List String) (inds : List Nat)
    (train_size : Nat) :
    List String × List String × List String × List String :=
  let fr_wrapped := fr_text.map wrap_fr
  let train_inds := inds.take train_size
  let test_inds := inds.drop train_size
  (train_inds.map (fun ti => en_text.getD ti ""),
   train_inds.map (fun ti => fr_wrapped.getD ti ""),
   test_inds.map (fun ti => en_text.getD ti ""),
   test_inds.map (fun ti => fr_wrapped.getD ti ""))

/-! ## `preprocess_data` (lines 41–51) -/

/-- Modelled from the spec: `sents2sequences` lives in
`utils/data_helper.py`, which is not among the sources; the spec
describes the preprocessing pipeline as the step "that turns raw
sentence pairs into padded ... tensors" ("tokenize/pad").  A sentence
is tokenized (oracle `tok`) and padded or truncated to `pad_length`. -/
def pad_to (n : Nat) (l : List Nat) : List Nat :=
  l.take n ++ List.replicate (n - l.length) 0

/-- Modelled from the spec: tokenize each sentence and pad to the fixed
length (see `pad_to`). -/
def sents2sequences (tok : String → List Nat) (sents : List String)
    (pad_length : Nat) : List (List Nat) :=
  sents.map (fun s => pad_to pad_length (tok s))

/-- Lines 41–51: `preprocess_data` applies `sents2sequences` to the
English text with `en_timesteps` and to the French text with
`fr_timesteps` (the prints are side effects without data flow). -/
def preprocess_data (en_tokenizer fr_tokenizer : String → List Nat)
    (en_text fr_text : List String) (en_timesteps fr_timesteps : Nat) :
    List (List Nat) × List (List Nat) :=
  (sents2sequences en_tokenizer en_text en_timesteps,
   sents2sequences fr_tokenizer fr_text fr_timesteps)

/-! ## `to_categorical` and the training loop (lines 54–71) -/

/-- One-hot vector of length `num_classes` for class `v`
(`keras.utils.to_categorical` on a scalar). -/
def oneHot (num_classes v : Nat) : List Nat :=
  (List.range num_classes).map (fun j => if j = v then 1 else 0)

/-- `to_categorical` on a 2-D integer array: shape `(samples,
timesteps)` becomes `(samples, timesteps, num_classes)`. -/
def to_categorical (seq : List (List Nat)) (num_classes : Nat) :
    List (List (List Nat)) :=
  seq.map (fun row => row.map (oneHot num_classes))

/-- Python `range(start, stop, step)` for a positive `step`. -/
def pythonRange (start stop step : Int) : List Int :=
  if 0 < step ∧ start < stop then
    (List.range (((stop - start - 1) / step).toNat + 1)).map
      (fun i : Nat => start + step * (i : Int))
  else []

/-- The batch start indices of one epoch of `train` (line 59):
`range(0, en_seq.shape[0] - batch_size, batch_size)`. -/
def batchStarts (nRows batch_size : Nat) : List Int :=
  pythonRange 0 ((nRows : Int) - (batch_size : Int)) (batch_size : Int)

/-- The arguments of one `train_on_batch` call (line 64); `evaluate`
(line 66) receives exactly the same three arrays. -/
structure BatchCall where
  enc_input : List (List (List Nat))
  dec_input : List (List (List Nat))
  target : List (List (List Nat))
deriving Repr, DecidableEq

/-- Lines 54–69 of `train`: for each epoch and each batch start `bi`,
one-hot the rows `bi : bi + batch_size` of both sequence arrays
(`en_seq[bi:bi+batch_size]` is `(drop bi).take batch_size`), and call
`train_on_batch` / `evaluate` with encoder input `en_onehot_seq`,
decoder input `fr_onehot_seq[:, :-1, :]` and target
`fr_onehot_seq[:, 1:, :]`.  The returned list records those calls in
order (losses only feed the prints). -/
def train (en_seq fr_seq : List (List Nat))
    (batch_size n_epochs en_vsize fr_vsize : Nat) : List BatchCall :=
  (List.range n_epochs).flatMap (fun _ep =>
    (batchStarts en_seq.length batch_size).map (fun bi =>
      let en_onehot_seq :=
        to_categorical ((en_seq.drop bi.toNat).take batch_size) en_vsize
      let fr_onehot_seq :=
        to_categorical ((fr_seq.drop bi.toNat).take batch_size) fr_vsize
      { enc_input := en_onehot_seq
        dec_input := fr_onehot_seq.map (fun row => row.dropLast)
        target := fr_onehot_seq.map (fun row => row.drop 1) }))

/-! ## `infer_nmt` (lines 74–106) -/

/-- `np.argmax` over a vector: first index of the maximum (0 on an
empty vector, a case numpy rejects). -/
def argmaxAux {V : Type} [LinearOrder V] : List V → Nat → Nat → V → Nat
  | [], _i, best, _bv => best
  | v :: vs, i, best, bv =>
    if bv < v then argmaxAux vs (i + 1) i v else argmaxAux vs (i + 1) best bv

/-- See `argmaxAux`. -/
def np_argmax {V : Type} [LinearOrder V] : List V → Nat
  | [] => 0
  | v :: vs => argmaxAux vs 1 0 v

/-- Result of the decode loop of `infer_nmt`, instrumented with the
trace of the `dec_ind` value computed by each executed loop iteration
(the trace is not part of the Python return value). -/
structure InferResult (α : Type) where
  fr_text : String
  attention_weights : List (Nat × α)
  trace : List Nat
deriving Repr

/-- Lines 93–105: the decode loop.  `predict st prev` embeds
`decoder_model.predict([enc_outs, dec_state, test_fr_onehot_seq])`:
`st` is the carried `dec_state` (together with the fixed `enc_outs`)
and `prev` the token id whose one-hot encoding is the current
`test_fr_onehot_seq`; it returns the `[0,0]` logit row of `dec_out`,
the attention array, and the next `dec_state`.  `index2word` embeds
`fr_index2word`. -/
def inferLoop {σ α V : Type} [LinearOrder V]
    (predict : σ → Nat → List V × α × σ) (index2word : Nat → String) :
    Nat → σ → Nat → String → List (Nat × α) → List Nat → InferResult α
  | 0, _st, _prev, text, aw, tr => ⟨text, aw, tr⟩
  | fuel + 1, st, prev, text, aw, tr =>
    let r := predict st prev
    let dec_ind := np_argmax r.1
    if dec_ind = 0 then ⟨text, aw, tr ++ [dec_ind]⟩
    else
      inferLoop predict index2word fuel r.2.2 dec_ind
        (text ++ index2word dec_ind ++ " ") (aw ++ [(dec_ind, r.2.1)])
        (tr ++ [dec_ind])

/-- The instrumented run of `infer_nmt`'s loop: `for i in range(20)`
starting from the encoder's last state `st0` and the `'sos'` token. -/
def inferRun {σ α V : Type} [LinearOrder V]
    (predict : σ → Nat → List V × α × σ) (index2word : Nat → String)
    (st0 : σ) (sosTok : Nat) : InferResult α :=
  inferLoop predict index2word 20 st0 sosTok "" [] []

/-- Lines 74–106: `infer_nmt` returns the accumulated translation
string and the list of `(dec_ind, attention)` pairs. -/
def infer_nmt {σ α V : Type} [LinearOrder V]
    (predict : σ → Nat → List V × α × σ) (index2word : Nat → String)
    (st0 : σ) (sosTok : Nat) : String × List (Nat × α) :=
  let r := inferRun predict index2word st0 sosTok
  (r.fr_text, r.attention_weights)

/-! ## `plot_attention_weights` (lines 109–143) -/

/-- `np.transpose` of a rectangular 2-D array given as rows. -/
def np_transpose {V : Type} [Inhabited V] (m : List (List V)) :
    List (List V) :=
  let cols := (m.head?.map List.length).getD 0
  (List.range cols).map (fun i => m.map (fun row => row.getD i default))

/-- Column `j` of a row-major matrix. -/
def getCol {V : Type} [Inhabited V] (m : List (List V)) (j : Nat) :
    List V :=
  m.map (fun row => row.getD j default)

/-- Lines 109–143: `plot_attention_weights`.  The assertion (line 120)
is embedded as the `Except.error` branch; the `Except.ok` value holds
the data handed to matplotlib: the matrix `np.transpose(np.array(mats))`
where each `mats` entry is `attn.reshape(-1)` (flattening, `List.join`),
the x-tick labels from the decoded ids, and the y-tick labels from
`encoder_inputs.ravel()`. -/
def plot_attention_weights {V : Type} [Inhabited V]
    (encoder_inputs : List (List Nat))
    (attention_weights : List (Nat × List (List V)))
    (en_id2word fr_id2word : Nat → String) :
    Except String (List (List V) × List String × List String) :=
  if attention_weights.length ≠ 0 then
    let mats := attention_weights.map (fun p => p.2.flatten)
    let dec_inputs := attention_weights.map Prod.fst
    let attention_mat := np_transpose mats
    Except.ok (attention_mat,
      dec_inputs.map (fun inp => if inp ≠ 0 then fr_id2word inp else "<Res>"),
      encoder_inputs.flatten.map
        (fun inp => if inp ≠ 0 then en_id2word inp else "<Res>"))
  else
    Except.error
      "Your attention weights was empty. Please check if the decoder produced  a proper translation"

/-! ## The `__main__` block (lines 146–198) -/

/-- The successive phases of the script's `__main__` block. -/
inductive Step where
  | loadCorpus
  | fitTokenizers
  | preprocess
  | buildModel
  | trainEpoch
  | saveModel
  | decode
  | plotHeatmap
deriving Repr, DecidableEq

/-- Position of each phase in the source order of `__main__`. -/
def Step.phase : Step → Nat
  | .loadCorpus => 0
  | .fitTokenizers => 1
  | .preprocess => 2
  | .buildModel => 3
  | .trainEpoch => 4
  | .saveModel => 5
  | .decode => 6
  | .plotHeatmap => 7

/-- Lines 146–198 of `__main__` as the sequence of performed steps:
`get_data`, tokenizer fitting, `preprocess_data`, `define_nmt`, the
`n_epochs` training epochs of `train`, `full_model.save`, the
`infer_nmt` decode of the first test sentence, and
`plot_attention_weights`. -/
def main_steps (n_epochs : Nat) : List Step :=
  [Step.loadCorpus, Step.fitTokenizers, Step.preprocess, Step.buildModel]
    ++ List.replicate n_epochs Step.trainEpoch
    ++ [Step.saveModel, Step.decode, Step.plotHeatmap]

/-! ## Lemmas about word splitting -/

theorem splitWordsAux_word_space (w : List Char) (hw : ' ' ∉ w) :
    ∀ (acc rest : List Char), acc ++ w ≠ [] →
      splitWordsAux (w ++ ' ' :: rest) acc
        = (acc ++ w) :: splitWordsAux rest [] := by
  induction w with
  | nil =>
    intro acc rest hne
    simp only [List.append_nil] at hne ⊢
    simp [splitWordsAux, hne]
  | cons c w' ih =>
    intro acc rest hne
    have hc : c ≠ ' ' := fun h => hw (by simp [h])
    have hw' : ' ' ∉ w' := fun h => hw (by simp [h])
    have : splitWordsAux (c :: (w' ++ ' ' :: rest)) acc
        = splitWordsAux (w' ++ ' ' :: rest) (acc ++ [c]) := by
      simp [splitWordsAux, hc]
    rw [List.cons_append, this, ih hw' (acc ++ [c]) rest (by simp)]
    simp

theorem splitWordsAux_flatten (ws : List (List Char))
    (h : ∀ w ∈ ws, w ≠ [] ∧ ' ' ∉ w) :
    splitWordsAux ((ws.map (fun w => w ++ [' '])).flatten) [] = ws := by
  induction ws with
  | nil => simp [splitWordsAux]
  | cons w ws' ih =>
    have hw := h w (by simp)
    have hrest : ∀ v ∈ ws', v ≠ [] ∧ ' ' ∉ v := fun v hv => h v (by simp [hv])
    have hflat : ((w :: ws').map (fun v => v ++ [' '])).flatten
        = w ++ ' ' :: ((ws'.map (fun v => v ++ [' '])).flatten) := by
      simp
    rw [hflat, splitWordsAux_word_space w hw.2 [] _ (by simpa using hw.1),
      ih hrest]
    simp

/-! ## Claim C3: the assertion of `plot_attention_weights` -/

/-- Whether an `Except` computation succeeded. -/
def exceptOk {ε β : Type} : Except ε β → Bool
  | .ok _ => true
  | .error _ => false

/-- C3: `plot_attention_weights` raises its assertion failure if and
only if `attention_weights` is empty: it succeeds exactly on non-empty
input, and on empty input it fails with the assertion's message — the
program's only failure branch (every other embedded function of this
file is total). -/
theorem claim_C3_plot_assertion {V : Type} [Inhabited V]
    (encoder_inputs : List (List Nat))
    (attention_weights : List (Nat × List (List V)))
    (en_id2word fr_id2word : Nat → String) :
    (exceptOk (plot_attention_weights encoder_inputs attention_weights
        en_id2word fr_id2word) = true ↔ attention_weights ≠ []) ∧
    (attention_weights = [] →
      plot_attention_weights encoder_inputs attention_weights
          en_id2word fr_id2word
        = Except.error "Your attention weights was empty. Please check if the decoder produced  a proper translation") := by
  constructor
  · by_cases h : attention_weights = [] <;>
      simp [plot_attention_weights, exceptOk, h]
  · intro h
    simp [plot_attention_weights, h]

/-- Witness for C3 at concrete inputs: the empty list triggers the
assertion, a singleton list passes it. -/
theorem claim_C3_plot_assertion_witness :
    plot_attention_weights [[(0 : Nat)]]
        ([] : List (Nat × List (List Int))) (fun _ => "") (fun _ => "")
      = Except.error "Your attention weights was empty. Please check if the decoder produced  a proper translation" :=
  (claim_C3_plot_assertion [[(0 : Nat)]] [] (fun _ => "") (fun _ => "")).2
    rfl

/-! ## Claim C6: `preprocess_data` pads to the fixed timestep lengths -/

/-- C6: both arrays returned by `preprocess_data` have all their rows
of the fixed length: `en_timesteps` for the English array and
`fr_timesteps` for the French array (every sentence padded or
truncated). -/
theorem claim_C6_preprocess_pad (en_tokenizer fr_tokenizer : String → List Nat)
    (en_text fr_text : List String) (en_timesteps fr_timesteps : Nat) :
    (∀ row ∈ (preprocess_data en_tokenizer fr_tokenizer en_text fr_text
        en_timesteps fr_timesteps).1, row.length = en_timesteps) ∧
    (∀ row ∈ (preprocess_data en_tokenizer fr_tokenizer en_text fr_text
        en_timesteps fr_timesteps).2, row.length = fr_timesteps) := by
  constructor <;>
  · intro row hrow
    simp only [preprocess_data, sents2sequences, List.mem_map] at hrow
    obtain ⟨s, _, rfl⟩ := hrow
    simp [pad_to]
    omega

/-- Witness for C6 at a concrete tokenizer and corpus. -/
theorem claim_C6_preprocess_pad_witness :
    (pad_to 7 ((fun _ => [5, 6]) "hello")).length = 7 :=
  (claim_C6_preprocess_pad (fun _ => [5, 6]) (fun _ => [8])
      ["hello"] ["bonjour"] 7 9).1
    (pad_to 7 ((fun _ => [5, 6]) "hello"))
    (by simp [preprocess_data, sents2sequences])

/-! ## Claim C8: order of the `__main__` steps -/

/-- C8: in the `__main__` block the phases occur in the fixed source
order — for every two positions of the step trace, the earlier step's
phase is at most the later one's (no later step ever precedes an
earlier one) — each one-shot step occurs exactly once, and training
contributes exactly `n_epochs` epoch steps between model building and
saving. -/
theorem claim_C8_main_order (n_epochs : Nat) :
    List.Pairwise (fun a b => Step.phase a ≤ Step.phase b)
        (main_steps n_epochs) ∧
    (main_steps n_epochs).count Step.loadCorpus = 1 ∧
    (main_steps n_epochs).count Step.fitTokenizers = 1 ∧
    (main_steps n_epochs).count Step.preprocess = 1 ∧
    (main_steps n_epochs).count Step.buildModel = 1 ∧
    (main_steps n_epochs).count Step.trainEpoch = n_epochs ∧
    (main_steps n_epochs).count Step.saveModel = 1 ∧
    (main_steps n_epochs).count Step.decode = 1 ∧
    (main_steps n_epochs).count Step.plotHeatmap = 1 := by
  refine ⟨?_, ?_⟩
  · have hrep : List.Pairwise (fun a b => Step.phase a ≤ Step.phase b)
        (List.replicate n_epochs Step.trainEpoch) := by
      apply List.pairwise_replicate.mpr
      simp
    rw [main_steps, List.pairwise_append]
    refine ⟨?_, by simp [Step.phase], ?_⟩
    · rw [List.pairwise_append]
      refine ⟨by simp [Step.phase], hrep, ?_⟩
      intro a ha b hb
      rw [List.eq_of_mem_replicate hb]
      simp at ha
      rcases ha with rfl | rfl | rfl | rfl <;> simp [Step.phase]
    · intro a ha b hb
      simp at ha hb
      have hb' : 5 ≤ Step.phase b := by
        rcases hb with rfl | rfl | rfl <;> simp [Step.phase]
      have ha' : Step.phase a ≤ 4 := by
        rcases ha with rfl | rfl | rfl | rfl | ⟨-, rfl⟩ <;> simp [Step.phase]
      omega
  · simp [main_steps, List.count_append, List.count_replicate,
      List.count_cons, List.count_nil]

/-! ## The decode loop of `infer_nmt` (claims C1 and C2) -/

/-- Characterization of one run of the decode loop relative to its
accumulators: the loop appends a block `ds` of emitted `(token,
attention)` pairs, appends the matching words to the text, records the
trace of computed `dec_ind`s (with a final `0` exactly when the loop
broke out, flag `z`), emits only nonzero tokens, executes at most
`fuel` iterations, and exhausts the fuel when it never broke. -/
theorem inferLoop_spec {σ α V : Type} [LinearOrder V]
    (predict : σ → Nat → List V × α × σ) (i2w : Nat → String) :
    ∀ (fuel : Nat) (st : σ) (prev : Nat) (text : String)
      (aw : List (Nat × α)) (tr : List Nat),
      ∃ (ds : List (Nat × α)) (z : Bool),
        (inferLoop predict i2w fuel st prev text aw tr).attention_weights
            = aw ++ ds ∧
        (inferLoop predict i2w fuel st prev text aw tr).fr_text.data
            = text.data
              ++ ((ds.map (fun d => (i2w d.1).data ++ [' '])).flatten) ∧
        (inferLoop predict i2w fuel st prev text aw tr).trace
            = tr ++ ds.map Prod.fst ++ (if z then [0] else []) ∧
        (∀ d ∈ ds, d.1 ≠ 0) ∧
        ds.length + (if z then 1 else 0) ≤ fuel ∧
        (z = false → ds.length = fuel) := by
  intro fuel
  induction fuel with
  | zero =>
    intro st prev text aw tr
    exact ⟨[], false, by simp [inferLoop], by simp [inferLoop],
      by simp [inferLoop], by simp, by simp, by simp⟩
  | succ fuel ih =>
    intro st prev text aw tr
    by_cases h : np_argmax (predict st prev).1 = 0
    · refine ⟨[], true, ?_, ?_, ?_, by simp, by simp, by simp⟩ <;>
        simp [inferLoop, h]
    · obtain ⟨ds', z', h1, h2, h3, h4, h5, h6⟩ :=
        ih (predict st prev).2.2 (np_argmax (predict st prev).1)
          (text ++ i2w (np_argmax (predict st prev).1) ++ " ")
          (aw ++ [(np_argmax (predict st prev).1, (predict st prev).2.1)])
          (tr ++ [np_argmax (predict st prev).1])
      have hstep : inferLoop predict i2w (fuel + 1) st prev text aw tr
          = inferLoop predict i2w fuel (predict st prev).2.2
              (np_argmax (predict st prev).1)
              (text ++ i2w (np_argmax (predict st prev).1) ++ " ")
              (aw ++ [(np_argmax (predict st prev).1, (predict st prev).2.1)])
              (tr ++ [np_argmax (predict st prev).1]) := by
        simp [inferLoop, h]
      refine ⟨(np_argmax (predict st prev).1, (predict st prev).2.1) :: ds',
        z', ?_, ?_, ?_, ?_, ?_, ?_⟩
      · rw [hstep, h1]; simp
      · rw [hstep, h2]; simp
      · rw [hstep, h3]; simp
      · intro d hd
        rcases List.mem_cons.mp hd with rfl | hd
        · simpa using h
        · exact h4 d hd
      · simp only [List.length_cons]
        omega
      · intro hz
        simp [h6 hz]

/-- C1: every emitting decode iteration of `infer_nmt` appends exactly
one `(token, attention)` pair and exactly one word: the translation
string is precisely the concatenation, in decode-step order, of the
words of the recorded token ids (each followed by one space); its
whitespace-separated words are those words in order, and their number
equals the length of `attention_weights`.  The hypothesis states that
the vocabulary words of `fr_index2word` are nonempty and contain no
space (keras tokenizers split on whitespace). -/
theorem claim_C1_one_word_per_pair {σ α V : Type} [LinearOrder V]
    (predict : σ → Nat → List V × α × σ) (i2w : Nat → String)
    (st0 : σ) (sosTok : Nat)
    (hwords : ∀ t, t ≠ 0 → i2w t ≠ "" ∧ ' ' ∉ (i2w t).data) :
    (infer_nmt predict i2w st0 sosTok).1.data
        = (((infer_nmt predict i2w st0 sosTok).2.map Prod.fst).map
            (fun t => (i2w t).data ++ [' '])).flatten ∧
    strWords (infer_nmt predict i2w st0 sosTok).1
        = ((infer_nmt predict i2w st0 sosTok).2.map Prod.fst).map i2w ∧
    (strWords (infer_nmt predict i2w st0 sosTok).1).length
        = (infer_nmt predict i2w st0 sosTok).2.length := by
  obtain ⟨ds, z, h1, h2, h3, h4, h5, h6⟩ :=
    inferLoop_spec predict i2w 20 st0 sosTok "" [] []
  have haw : (infer_nmt predict i2w st0 sosTok).2 = ds := by
    simp only [infer_nmt, inferRun]
    rw [h1]
    simp
  have htext : (infer_nmt predict i2w st0 sosTok).1.data
      = ((ds.map (fun d => (i2w d.1).data)).map
          (fun w => w ++ [' '])).flatten := by
    simp only [infer_nmt, inferRun]
    rw [h2]
    simp [List.map_map]
    rfl
  have hcond : ∀ w ∈ ds.map (fun d => (i2w d.1).data), w ≠ [] ∧ ' ' ∉ w := by
    intro w hw
    obtain ⟨d, hd, rfl⟩ := List.mem_map.mp hw
    obtain ⟨hne, hsp⟩ := hwords d.1 (h4 d hd)
    refine ⟨fun hc => hne (String.ext hc), hsp⟩
  have hsplit : strWords (infer_nmt predict i2w st0 sosTok).1
      = (ds.map (fun d => (i2w d.1).data)).map String.mk := by
    rw [strWords, htext, splitWordsAux_flatten _ hcond]
  refine ⟨?_, ?_, ?_⟩
  · rw [htext, haw]
    simp [List.map_map]
    rfl
  · rw [hsplit, haw]
    simp [List.map_map]
  · rw [hsplit, haw]
    simp

/-- C2: the decode loop of `infer_nmt` executes at most 20 iterations;
every iteration except possibly the last computes a nonzero argmax; if
fewer than 20 iterations ran, the last one computed argmax 0 (the only
way to stop early); and exactly the nonzero argmax values are recorded
in `attention_weights` (a 0 step records nothing). -/
theorem claim_C2_termination {σ α V : Type} [LinearOrder V]
    (predict : σ → Nat → List V × α × σ) (i2w : Nat → String)
    (st0 : σ) (sosTok : Nat) :
    (inferRun predict i2w st0 sosTok).trace.length ≤ 20 ∧
    (∀ x ∈ (inferRun predict i2w st0 sosTok).trace.dropLast, x ≠ 0) ∧
    ((inferRun predict i2w st0 sosTok).trace.length < 20 →
      (inferRun predict i2w st0 sosTok).trace.getLast? = some 0) ∧
    (inferRun predict i2w st0 sosTok).attention_weights.map Prod.fst
        = (inferRun predict i2w st0 sosTok).trace.filter (fun x => x != 0) := by
  obtain ⟨ds, z, h1, h2, h3, h4, h5, h6⟩ :=
    inferLoop_spec predict i2w 20 st0 sosTok "" [] []
  have haw : (inferRun predict i2w st0 sosTok).attention_weights = ds := by
    rw [inferRun, h1]
    simp
  have hfst : ∀ x ∈ ds.map Prod.fst, x ≠ 0 := by
    intro x hx
    obtain ⟨d, hd, rfl⟩ := List.mem_map.mp hx
    exact h4 d hd
  have hself : (ds.map Prod.fst).filter (fun x => x != 0)
      = ds.map Prod.fst := by
    apply List.filter_eq_self.mpr
    intro a ha
    simpa using hfst a ha
  cases z with
  | false =>
    have htr : (inferRun predict i2w st0 sosTok).trace = ds.map Prod.fst := by
      rw [inferRun, h3]
      simp
    have hlen20 : ds.length = 20 := h6 rfl
    refine ⟨?_, ?_, ?_, ?_⟩
    · rw [htr]
      simp [hlen20]
    · rw [htr]
      intro x hx
      exact hfst x (List.dropLast_subset _ hx)
    · intro hlen
      exfalso
      rw [htr] at hlen
      simp [hlen20] at hlen
    · rw [htr, haw, hself]
  | true =>
    have htr : (inferRun predict i2w st0 sosTok).trace
        = ds.map Prod.fst ++ [0] := by
      rw [inferRun, h3]
      simp
    have hlen21 : ds.length + 1 ≤ 20 := by simpa using h5
    refine ⟨?_, ?_, ?_, ?_⟩
    · rw [htr]
      simp
      omega
    · rw [htr, List.dropLast_concat]
      exact hfst
    · intro _
      rw [htr]
      simp
    · rw [htr, haw, List.filter_append, hself]
      simp

/-- A concrete decoder oracle for the witnesses: it predicts token 1
twice, then token 0 (argmax of `[1, 0]`), so the decode loop stops at
its third iteration. -/
def demoPredict : Nat → Nat → List Int × Unit × Nat :=
  fun st _prev => (if st < 2 then [0, 1] else [1, 0], (), st + 1)

/-- A concrete `fr_index2word` for the witnesses. -/
def demoWord : Nat → String := fun t => if t = 0 then "" else "mot"

/-- Witness for C1: on the concrete decoder, the number of words of the
returned translation equals the number of recorded attention pairs. -/
theorem claim_C1_one_word_per_pair_witness :
    (strWords (infer_nmt demoPredict demoWord 0 1).1).length
        = (infer_nmt demoPredict demoWord 0 1).2.length :=
  (claim_C1_one_word_per_pair demoPredict demoWord 0 1
    (by
      intro t ht
      simp only [demoWord, if_neg ht]
      exact ⟨by decide, by decide⟩)).2.2

/-- Witness for C2: the concrete decoder's run stops after 3 of the 20
iterations, and indeed its last computed argmax is 0. -/
theorem claim_C2_termination_witness :
    (inferRun demoPredict demoWord 0 1).trace.getLast? = some 0 :=
  (claim_C2_termination demoPredict demoWord 0 1).2.2.1 (by decide)

/-! ## Claim C10: the sos/eos wrapping of `get_data` -/

theorem splitWordsAux_space_append (xs : List Char) :
    ∀ (acc ys : List Char),
      splitWordsAux (xs ++ ' ' :: ys) acc
        = splitWordsAux (xs ++ [' ']) acc ++ splitWordsAux ys [] := by
  induction xs with
  | nil =>
    intro acc ys
    by_cases h : acc = [] <;> simp [splitWordsAux, h]
  | cons c xs' ih =>
    intro acc ys
    by_cases hc : c = ' '
    · subst hc
      by_cases h : acc = []
      · rw [List.cons_append, List.cons_append]
        rw [show splitWordsAux (' ' :: (xs' ++ ' ' :: ys)) acc
            = splitWordsAux (xs' ++ ' ' :: ys) [] from by
          simp [splitWordsAux, h]]
        rw [show splitWordsAux (' ' :: (xs' ++ [' '])) acc
            = splitWordsAux (xs' ++ [' ']) [] from by
          simp [splitWordsAux, h]]
        exact ih [] ys
      · rw [List.cons_append, List.cons_append]
        rw [show splitWordsAux (' ' :: (xs' ++ ' ' :: ys)) acc
            = acc :: splitWordsAux (xs' ++ ' ' :: ys) [] from by
          simp [splitWordsAux, h]]
        rw [show splitWordsAux (' ' :: (xs' ++ [' '])) acc
            = acc :: splitWordsAux (xs' ++ [' ']) [] from by
          simp [splitWordsAux, h]]
        rw [List.cons_append, ih [] ys]
    · rw [List.cons_append, List.cons_append]
      rw [show splitWordsAux (c :: (xs' ++ ' ' :: ys)) acc
          = splitWordsAux (xs' ++ ' ' :: ys) (acc ++ [c]) from by
        simp [splitWordsAux, hc]]
      rw [show splitWordsAux (c :: (xs' ++ [' '])) acc
          = splitWordsAux (xs' ++ [' ']) (acc ++ [c]) from by
        simp [splitWordsAux, hc]]
      exact ih (acc ++ [c]) ys

/-- C10 as stated is false: the corpus sentence `"il."` ends with `'.'`
but has no space before it, so the wrap glues `eos` onto the last word:
the wrapped sentence is `"sos ileos ."`, whose whitespace-separated
tokens are `["sos", "ileos", "."]` — `eos` is not a standalone token. -/
theorem claim_C10_counterexample :
    wrap_fr "il." = "sos ileos ." ∧
    strWords (wrap_fr "il.") = ["sos", "ileos", "."] ∧
    "eos" ∉ strWords (wrap_fr "il.") := by
  decide

/-- C10 amended: every wrapped sentence begins with the prefix
`"sos "` and ends with the suffix `"eos ."`, and `sos` always appears
as a standalone whitespace-delimited token; `eos` appears as a
standalone token provided that, when the sentence ends with `'.'`,
what precedes that final `'.'` is empty or ends with a space (true of
every sentence of the bundled corpus, which writes `" ."`). -/
theorem claim_C10_wrap_markers (sent : String) :
    (∃ r, (wrap_fr sent).data = "sos ".data ++ r) ∧
    (∃ l, (wrap_fr sent).data = l ++ "eos .".data) ∧
    "sos" ∈ strWords (wrap_fr sent) ∧
    ((sent.data.getLast? = some '.' →
        sent.data.dropLast = [] ∨ sent.data.dropLast.getLast? = some ' ') →
      "eos" ∈ strWords (wrap_fr sent)) := by
  by_cases hE : sent.data.getLast? = some '.'
  · have hdata : (wrap_fr sent).data
        = ['s', 'o', 's'] ++ ' ' :: (sent.data.dropLast ++ "eos .".data) := by
      simp [wrap_fr, hE]
    refine ⟨⟨sent.data.dropLast ++ "eos .".data, by simpa using hdata⟩,
      ⟨"sos ".data ++ sent.data.dropLast, by simpa using hdata⟩, ?_, ?_⟩
    · rw [strWords, hdata,
        splitWordsAux_word_space ['s', 'o', 's'] (by decide) [] _ (by decide)]
      simp
    · intro hcond
      rcases hcond hE with hnil | hsp
      · rw [strWords, hdata, hnil,
          splitWordsAux_word_space ['s', 'o', 's'] (by decide) [] _ (by decide)]
        simp only [List.nil_append]
        have : splitWordsAux "eos .".data [] = [['e', 'o', 's'], ['.']] := by
          decide
        rw [this]
        simp
      · have hne : sent.data.dropLast ≠ [] := by
          intro h
          rw [h] at hsp
          simp at hsp
        have hsplit : sent.data.dropLast
            = sent.data.dropLast.dropLast ++ [' '] := by
          have h1 := List.dropLast_append_getLast hne
          rw [List.getLast?_eq_getLast _ hne] at hsp
          rw [Option.some_inj] at hsp
          rw [hsp] at h1
          exact h1.symm
        rw [strWords, hdata,
          splitWordsAux_word_space ['s', 'o', 's'] (by decide) [] _ (by decide),
          hsplit]
        have hassoc : (sent.data.dropLast.dropLast ++ [' ']) ++ "eos .".data
            = sent.data.dropLast.dropLast ++ ' ' :: "eos .".data := by
          simp
        rw [hassoc, splitWordsAux_space_append]
        have : splitWordsAux "eos .".data [] = [['e', 'o', 's'], ['.']] := by
          decide
        rw [this]
        simp
  · have hdata : (wrap_fr sent).data
        = ['s', 'o', 's'] ++ ' ' :: (sent.data ++ ' ' :: "eos .".data) := by
      simp [wrap_fr, hE]
    refine ⟨⟨sent.data ++ ' ' :: "eos .".data, by simpa using hdata⟩,
      ⟨"sos ".data ++ sent.data ++ [' '], by simp [hdata]⟩, ?_, ?_⟩
    · rw [strWords, hdata,
        splitWordsAux_word_space ['s', 'o', 's'] (by decide) [] _ (by decide)]
      simp
    · intro _
      rw [strWords, hdata,
        splitWordsAux_word_space ['s', 'o', 's'] (by decide) [] _ (by decide),
        splitWordsAux_space_append]
      have : splitWordsAux "eos .".data [] = [['e', 'o', 's'], ['.']] := by
        decide
      rw [this]
      simp

/-- Witness for C10 (amended) at the corpus-style sentence
`"il est beau ."`, which has a space before its final period. -/
theorem claim_C10_wrap_markers_witness :
    "eos" ∈ strWords (wrap_fr "il est beau .") :=
  (claim_C10_wrap_markers "il est beau .").2.2.2 (by decide)

/-! ## Claim C9: `get_data` splits and aligns the corpus -/

theorem getD_map_lt {α β : Type} (f : α → β) (l : List α) (i : Nat)
    (d : β) (d₀ : α) (h : i < l.length) :
    (l.map f).getD i d = f (l.getD i d₀) := by
  rw [List.getD_eq_getElem?_getD, List.getElem?_map,
    List.getD_eq_getElem?_getD, List.getElem?_eq_getElem h]
  simp

/-- C9: for a corpus of `N` parallel sentences, a shuffle permutation
`inds` of `range N` and `train_size ≤ N`, `get_data` returns train
lists of exactly `train_size` pairs and test lists of exactly
`N - train_size` pairs; the underlying index sets (the taken and the
dropped part of `inds`) are disjoint and together a permutation of all
`N` indices; and alignment is preserved: at each position the English
and the (wrapped) French sentence come from the same corpus index. -/
theorem claim_C9_get_data_split (en_text fr_text : List String)
    (inds : List Nat) (train_size N : Nat)
    (_hen : en_text.length = N) (hfr : fr_text.length = N)
    (hperm : inds.Perm (List.range N)) (hts : train_size ≤ N) :
    (get_data en_text fr_text inds train_size).1.length = train_size ∧
    (get_data en_text fr_text inds train_size).2.1.length = train_size ∧
    (get_data en_text fr_text inds train_size).2.2.1.length
        = N - train_size ∧
    (get_data en_text fr_text inds train_size).2.2.2.length
        = N - train_size ∧
    List.Disjoint (inds.take train_size) (inds.drop train_size) ∧
    (inds.take train_size ++ inds.drop train_size).Perm (List.range N) ∧
    (∀ i, i < train_size →
      (get_data en_text fr_text inds train_size).1.getD i ""
          = en_text.getD ((inds.take train_size).getD i 0) "" ∧
      (get_data en_text fr_text inds train_size).2.1.getD i ""
          = wrap_fr (fr_text.getD ((inds.take train_size).getD i 0) "")) ∧
    (∀ i, i < N - train_size →
      (get_data en_text fr_text inds train_size).2.2.1.getD i ""
          = en_text.getD ((inds.drop train_size).getD i 0) "" ∧
      (get_data en_text fr_text inds train_size).2.2.2.getD i ""
          = wrap_fr (fr_text.getD ((inds.drop train_size).getD i 0) "")) := by
  have hlen : inds.length = N := by
    simpa using hperm.length_eq
  have hnodup : inds.Nodup := hperm.nodup_iff.mpr (List.nodup_range N)
  have hmemN : ∀ ti ∈ inds, ti < N := by
    intro ti hti
    have := hperm.mem_iff.mp hti
    simpa using this
  have htake : (inds.take train_size).length = train_size := by
    simp [hlen, hts]
  have hdrop : (inds.drop train_size).length = N - train_size := by
    simp [hlen]
  have hwrapD : ∀ ti, ti < N →
      (fr_text.map wrap_fr).getD ti "" = wrap_fr (fr_text.getD ti "") := by
    intro ti hti
    exact getD_map_lt wrap_fr fr_text ti "" "" (by omega)
  refine ⟨?_, ?_, ?_, ?_, ?_, ?_, ?_, ?_⟩
  · simp [get_data]
    omega
  · simp [get_data]
    omega
  · simp [get_data]
    omega
  · simp [get_data]
    omega
  · exact List.disjoint_take_drop hnodup le_rfl
  · rw [List.take_append_drop]
    exact hperm
  · intro i hi
    constructor
    · rw [show (get_data en_text fr_text inds train_size).1
          = (inds.take train_size).map (fun ti => en_text.getD ti "")
          from rfl]
      exact getD_map_lt _ _ _ _ 0 (by omega)
    · rw [show (get_data en_text fr_text inds train_size).2.1
          = (inds.take train_size).map
              (fun ti => (fr_text.map wrap_fr).getD ti "") from rfl]
      rw [getD_map_lt _ _ _ _ 0 (by omega)]
      refine hwrapD _ (hmemN _ ?_)
      have hmem : (inds.take train_size).getD i 0 ∈ inds.take train_size := by
        rw [List.getD_eq_getElem?_getD, List.getElem?_eq_getElem (by omega)]
        simp only [Option.getD_some]
        exact List.getElem_mem _
      exact List.mem_of_mem_take hmem
  · intro i hi
    constructor
    · rw [show (get_data en_text fr_text inds train_size).2.2.1
          = (inds.drop train_size).map (fun ti => en_text.getD ti "")
          from rfl]
      exact getD_map_lt _ _ _ _ 0 (by omega)
    · rw [show (get_data en_text fr_text inds train_size).2.2.2
          = (inds.drop train_size).map
              (fun ti => (fr_text.map wrap_fr).getD ti "") from rfl]
      rw [getD_map_lt _ _ _ _ 0 (by omega)]
      refine hwrapD _ (hmemN _ ?_)
      have hmem : (inds.drop train_size).getD i 0 ∈ inds.drop train_size := by
        rw [List.getD_eq_getElem?_getD, List.getElem?_eq_getElem (by omega)]
        simp only [Option.getD_some]
        exact List.getElem_mem _
      exact List.mem_of_mem_drop hmem

/-- Witness for C9 on a concrete two-sentence corpus with the shuffle
`[1, 0]` and `train_size = 1`. -/
theorem claim_C9_get_data_split_witness :
    (get_data ["a", "b"] ["x", "y"] [1, 0] 1).1.length = 1 :=
  (claim_C9_get_data_split ["a", "b"] ["x", "y"] [1, 0] 1 2
    (by decide) (by decide) (by decide) (by decide)).1

/-! ## Claim C7: the heatmap matrix and its labels -/

theorem range_map_getD {V : Type} [Inhabited V] (row : List V) :
    (List.range row.length).map (fun i => row.getD i default) = row := by
  apply List.ext_getElem
  · simp
  · intro i h1 h2
    simp only [List.getElem_map, List.getElem_range]
    rw [List.getD_eq_getElem row default h2]

theorem getCol_np_transpose {V : Type} [Inhabited V] (m : List (List V))
    (L : Nat) (hrect : ∀ row ∈ m, row.length = L) (hne : m ≠ [])
    (j : Nat) (hj : j < m.length) :
    getCol (np_transpose m) j = m.getD j [] := by
  have hcols : (m.head?.map List.length).getD 0 = L := by
    cases m with
    | nil => exact absurd rfl hne
    | cons r rs => simpa using hrect r (by simp)
  have hrow_len : (m.getD j []).length = L := by
    apply hrect
    rw [List.getD_eq_getElem?_getD, List.getElem?_eq_getElem hj]
    simp only [Option.getD_some]
    exact List.getElem_mem _
  simp only [np_transpose, getCol, hcols, List.map_map]
  have hpt : ∀ i ∈ List.range L,
      ((fun row => row.getD j default) ∘ fun i => m.map fun row => row.getD i default) i
        = (fun i => (m.getD j []).getD i default) i := by
    intro i _
    simp only [Function.comp]
    exact getD_map_lt (fun row => row.getD i default) m j default [] hj
  rw [List.map_congr_left hpt]
  rw [← hrow_len, range_map_getD]

/-- C7: for non-empty, uniformly sized attention vectors,
`plot_attention_weights` succeeds and the plotted matrix is the
transpose of the row-stacked flattened attention vectors: its column
`j` is the flattened attention vector of decode step `j`, and the
x-axis labels are the decoded tokens in decode order, with id 0
rendered as `"<Res>"`. -/
theorem claim_C7_plot_matrix {V : Type} [Inhabited V]
    (encoder_inputs : List (List Nat))
    (attention_weights : List (Nat × List (List V)))
    (en_id2word fr_id2word : Nat → String) (L : Nat)
    (hne : attention_weights ≠ [])
    (hrect : ∀ p ∈ attention_weights, p.2.flatten.length = L) :
    ∃ M xlabels ylabels,
      plot_attention_weights encoder_inputs attention_weights en_id2word
          fr_id2word = Except.ok (M, xlabels, ylabels) ∧
      M = np_transpose (attention_weights.map (fun p => p.2.flatten)) ∧
      (∀ j, j < attention_weights.length →
        getCol M j = (attention_weights.getD j (0, [])).2.flatten) ∧
      xlabels = attention_weights.map
        (fun p => if p.1 ≠ 0 then fr_id2word p.1 else "<Res>") := by
  have hl : attention_weights.length ≠ 0 := fun h => hne (List.length_eq_zero.mp h)
  have hmats_rect : ∀ row ∈ attention_weights.map (fun p => p.2.flatten),
      row.length = L := by
    intro row hrow
    obtain ⟨p, hp, rfl⟩ := List.mem_map.mp hrow
    exact hrect p hp
  have hmats_ne : attention_weights.map (fun p => p.2.flatten) ≠ [] := by
    simpa using hne
  refine ⟨np_transpose (attention_weights.map (fun p => p.2.flatten)),
    (attention_weights.map Prod.fst).map
      (fun inp => if inp ≠ 0 then fr_id2word inp else "<Res>"),
    encoder_inputs.flatten.map
      (fun inp => if inp ≠ 0 then en_id2word inp else "<Res>"),
    ?_, rfl, ?_, ?_⟩
  · simp only [plot_attention_weights, if_pos hl]
  · intro j hj
    rw [getCol_np_transpose _ L hmats_rect hmats_ne j (by simpa using hj)]
    exact getD_map_lt (fun p => p.2.flatten) attention_weights j [] (0, []) hj
  · simp [List.map_map]

/-- Witness for C7 at two concrete decode steps with 1-element
attention vectors: `plot_attention_weights` succeeds and the plotted
matrix has the attention vector of step `j` as column `j`. -/
theorem claim_C7_plot_matrix_witness :
    ∃ M xlabels ylabels,
      plot_attention_weights [[(1 : Nat)]]
          [((1 : Nat), [[(5 : Int)]]), ((2 : Nat), [[(7 : Int)]])]
          (fun _ => "en") (fun _ => "fr")
        = Except.ok (M, xlabels, ylabels) ∧
      M = np_transpose ([((1 : Nat), [[(5 : Int)]]),
            ((2 : Nat), [[(7 : Int)]])].map (fun p => p.2.flatten)) ∧
      (∀ j, j < [((1 : Nat), [[(5 : Int)]]),
            ((2 : Nat), [[(7 : Int)]])].length →
        getCol M j = ([((1 : Nat), [[(5 : Int)]]),
            ((2 : Nat), [[(7 : Int)]])].getD j (0, [])).2.flatten) ∧
      xlabels = [((1 : Nat), [[(5 : Int)]]), ((2 : Nat), [[(7 : Int)]])].map
        (fun p => if p.1 ≠ 0 then "fr" else "<Res>") :=
  claim_C7_plot_matrix [[(1 : Nat)]]
    [((1 : Nat), [[(5 : Int)]]), ((2 : Nat), [[(7 : Int)]])]
    (fun _ => "en") (fun _ => "fr") 1 (by decide) (by decide)

/-! ## Claim C5: teacher forcing with a one-step shift -/

theorem shift_getD {β : Type} (row : List β) (t : Nat) (d : β)
    (h : t + 1 < row.dropLast.length) :
    (row.drop 1).getD t d = row.dropLast.getD (t + 1) d := by
  have hlen : row.dropLast.length = row.length - 1 := by simp
  rw [List.getD_eq_getElem?_getD, List.getD_eq_getElem?_getD,
    List.getElem?_drop, List.dropLast_eq_take, List.getElem?_take,
    if_pos (by omega : t + 1 < row.length - 1), Nat.add_comm 1 t]

/-- C5: in every batch call of `train`, the decoder input is the
one-hot French batch without its last timestep and the target the same
batch without its first timestep; consequently the target at timestep
`t` equals the decoder input at timestep `t + 1` for every sample. -/
theorem claim_C5_teacher_forcing (en_seq fr_seq : List (List Nat))
    (batch_size n_epochs en_vsize fr_vsize : Nat) :
    ∀ c ∈ train en_seq fr_seq batch_size n_epochs en_vsize fr_vsize,
      ∃ frb : List (List Nat),
        c.dec_input
            = (to_categorical frb fr_vsize).map (fun row => row.dropLast) ∧
        c.target = (to_categorical frb fr_vsize).map (fun row => row.drop 1) ∧
        (∀ i t, t + 1 < (c.dec_input.getD i []).length →
          (c.target.getD i []).getD t []
              = (c.dec_input.getD i []).getD (t + 1) []) := by
  intro c hc
  simp only [train, List.mem_flatMap, List.mem_map, List.mem_range] at hc
  obtain ⟨ep, _, bi, _, rfl⟩ := hc
  refine ⟨(fr_seq.drop bi.toNat).take batch_size, rfl, rfl, ?_⟩
  intro i t ht
  by_cases hi :
      i < (to_categorical ((fr_seq.drop bi.toNat).take batch_size)
            fr_vsize).length
  · rw [getD_map_lt _ _ i ([] : List (List Nat)) [] hi] at ht ⊢
    rw [getD_map_lt _ _ i ([] : List (List Nat)) [] hi]
    exact shift_getD _ _ _ ht
  · rw [List.getD_eq_default] at ht
    · simp at ht
    · simpa using hi

/-- Witness for C5 on a concrete two-sentence corpus with
`batch_size = 1` and a single epoch. -/
theorem claim_C5_teacher_forcing_witness :
    ∃ frb : List (List Nat),
      ((train [[0], [1]] [[0, 1, 2], [1, 2, 3]] 1 1 4 4).getD 0
          ⟨[], [], []⟩).dec_input
          = (to_categorical frb 4).map (fun row => row.dropLast) ∧
      ((train [[0], [1]] [[0, 1, 2], [1, 2, 3]] 1 1 4 4).getD 0
          ⟨[], [], []⟩).target
          = (to_categorical frb 4).map (fun row => row.drop 1) ∧
      (∀ i t, t + 1 <
          (((train [[0], [1]] [[0, 1, 2], [1, 2, 3]] 1 1 4 4).getD 0
              ⟨[], [], []⟩).dec_input.getD i []).length →
        (((train [[0], [1]] [[0, 1, 2], [1, 2, 3]] 1 1 4 4).getD 0
            ⟨[], [], []⟩).target.getD i []).getD t []
            = (((train [[0], [1]] [[0, 1, 2], [1, 2, 3]] 1 1 4 4).getD 0
                ⟨[], [], []⟩).dec_input.getD i []).getD (t + 1) []) :=
  claim_C5_teacher_forcing [[0], [1]] [[0, 1, 2], [1, 2, 3]] 1 1 4 4
    ((train [[0], [1]] [[0, 1, 2], [1, 2, 3]] 1 1 4 4).getD 0 ⟨[], [], []⟩)
    (by decide)

/-! ## Claim C4: the batch slicing of `train` -/

/-- Row `r` of the training arrays lies in the slice of some batch of
one epoch of `train` over `N` rows with batch size `b`. -/
def rowCovered (N b r : Nat) : Prop :=
  ∃ bi ∈ batchStarts N b, bi ≤ (r : Int) ∧ (r : Int) < bi + (b : Int)

theorem batchStarts_empty (N b : Nat) (h : N ≤ b) : batchStarts N b = [] := by
  rw [batchStarts, pythonRange, if_neg]
  intro hc
  have := hc.2
  omega

theorem batchStarts_eq (N b : Nat) (hb : 0 < b) (hbN : b < N) :
    batchStarts N b = (List.range ((N - b - 1) / b + 1)).map
      (fun i => ((b * i : Nat) : Int)) := by
  rw [batchStarts, pythonRange,
    if_pos ⟨by exact_mod_cast hb, by omega⟩]
  have hcnt : (((N : Int) - b - 0 - 1) / b).toNat + 1 = (N - b - 1) / b + 1 := by
    have h1 : (N : Int) - b - 0 - 1 = ((N - b - 1 : Nat) : Int) := by omega
    have h2 : ((N : Int) - b - 0 - 1) / b = (((N - b - 1) / b : Nat) : Int) := by
      rw [h1]
      exact (Int.natCast_ediv _ _).symm
    rw [h2, Int.toNat_natCast]
  rw [hcnt]
  apply List.map_congr_left
  intro i _
  push_cast
  ring

theorem batchStarts_mem (N b : Nat) (hb : 0 < b) (bi : Int)
    (h : bi ∈ batchStarts N b) :
    ∃ i : Nat, i < (batchStarts N b).length ∧ bi = ((b * i : Nat) : Int) ∧
      b * i + b ≤ N := by
  by_cases hbN : b < N
  · rw [batchStarts_eq N b hb hbN] at h ⊢
    simp only [List.mem_map, List.mem_range] at h
    obtain ⟨i, hi, rfl⟩ := h
    have hdiv : b * ((N - b - 1) / b) ≤ N - b - 1 := by
      rw [Nat.mul_comm]
      exact Nat.div_mul_le_self _ _
    have hmono : b * i ≤ b * ((N - b - 1) / b) :=
      Nat.mul_le_mul_left b (by omega)
    refine ⟨i, by simpa using hi, rfl, by omega⟩
  · rw [batchStarts_empty N b (by omega)] at h
    simp at h

/-- C4 as stated is false: with 128 rows and `batch_size = 64`,
`range(0, 128 - 64, 64)` yields the single start index 0, so one epoch
performs a single batch (rows 0–63) and row 64 belongs to no batch —
the batches do not cover every row of `en_seq`. -/
theorem claim_C4_counterexample :
    (train (List.replicate 4 [0]) (List.replicate 4 [0]) 2 1 1 1).length
        = 1 ∧
    batchStarts (List.replicate 4 ([0] : List Nat)).length 2 = [0] ∧
    ¬ rowCovered (List.replicate 4 ([0] : List Nat)).length 2 2 := by
  refine ⟨by decide, by decide, ?_⟩
  rw [rowCovered]
  decide

/-- C4 amended: in each of the `n_epochs` epochs, `train` slices the
data into consecutive disjoint batches of exactly `batch_size` rows,
starting at the multiples `0, b, 2b, …` strictly below
`en_seq.shape[0] - batch_size`, calling `train_on_batch` and `evaluate`
once per batch; but the batches cover exactly the rows below
`batch_size * (number of batches)`, and whenever `batch_size <` number
of rows, at least one trailing row is never covered (the final
`batch_size` rows when `batch_size` divides the row count, the final
`rows mod batch_size` rows otherwise). -/
theorem claim_C4_batches (en_seq fr_seq : List (List Nat))
    (b n_ep evs fvs : Nat) (hb : 0 < b)
    (hlen : fr_seq.length = en_seq.length) :
    (train en_seq fr_seq b n_ep evs fvs).length
        = n_ep * (batchStarts en_seq.length b).length ∧
    (∀ j, j < (batchStarts en_seq.length b).length →
      (batchStarts en_seq.length b).getD j 0 = ((b * j : Nat) : Int)) ∧
    (∀ c ∈ train en_seq fr_seq b n_ep evs fvs,
      c.enc_input.length = b ∧ c.dec_input.length = b ∧
        c.target.length = b) ∧
    (∀ r : Nat, rowCovered en_seq.length b r
        ↔ r < b * (batchStarts en_seq.length b).length) ∧
    (b < en_seq.length →
      b * (batchStarts en_seq.length b).length < en_seq.length) := by
  refine ⟨?_, ?_, ?_, ?_, ?_⟩
  · simp only [train, List.length_flatMap]
    have hmap : ∀ x ∈ List.range n_ep,
        (List.length ∘ fun _ep : Nat =>
          (batchStarts en_seq.length b).map (fun bi : Int =>
            ({ enc_input :=
                  to_categorical ((en_seq.drop bi.toNat).take b) evs
               dec_input :=
                  (to_categorical ((fr_seq.drop bi.toNat).take b)
                    fvs).map (fun row => row.dropLast)
               target :=
                  (to_categorical ((fr_seq.drop bi.toNat).take b)
                    fvs).map (fun row => row.drop 1) } : BatchCall))) x
          = (batchStarts en_seq.length b).length := by
      intro x _
      simp
    rw [List.map_congr_left hmap, List.map_const', List.sum_replicate,
      smul_eq_mul, List.length_range]
  · intro j hj
    by_cases hbN : b < en_seq.length
    · rw [batchStarts_eq _ b hb hbN] at hj ⊢
      simp only [List.length_map, List.length_range] at hj
      rw [getD_map_lt _ _ j 0 0 (by simpa using hj)]
      rw [List.getD_eq_getElem?_getD,
        List.getElem?_eq_getElem (by simpa using hj)]
      simp
    · rw [batchStarts_empty _ b (by omega)] at hj
      simp at hj
  · intro c hc
    simp only [train, List.mem_flatMap, List.mem_map, List.mem_range] at hc
    obtain ⟨ep, _, bi, hbi, rfl⟩ := hc
    obtain ⟨i, _, rfl, hiN⟩ := batchStarts_mem _ b hb bi hbi
    have htoNat : ((b * i : Nat) : Int).toNat = b * i := Int.toNat_ofNat _
    have hrows : ∀ l : List (List Nat), l.length = en_seq.length →
        ((l.drop ((b * i : Nat) : Int).toNat).take b).length = b := by
      intro l hl
      rw [htoNat]
      simp [hl]
      omega
    refine ⟨?_, ?_, ?_⟩ <;> simp only [to_categorical, List.length_map]
    · rw [hrows en_seq rfl]
    · rw [hrows fr_seq hlen]
    · rw [hrows fr_seq hlen]
  · intro r
    constructor
    · rintro ⟨bi, hbi, hle, hlt⟩
      obtain ⟨i, hik, rfl, hiN⟩ := batchStarts_mem _ b hb bi hbi
      have hle' : b * i ≤ r := by exact_mod_cast hle
      have hlt' : r < b * i + b := by
        have : ((b * i + b : Nat) : Int) = ((b * i : Nat) : Int) + b := by
          push_cast
          ring
        rw [← this] at hlt
        exact_mod_cast hlt
      have hexp : b * (i + 1) = b * i + b := by ring
      have hmul : b * (i + 1) ≤ b * (batchStarts en_seq.length b).length :=
        Nat.mul_le_mul_left b (by omega)
      omega
    · intro hr
      have hkpos : 0 < (batchStarts en_seq.length b).length := by
        by_contra hk
        simp only [Nat.pos_iff_ne_zero, ne_eq, not_not] at hk
        rw [hk] at hr
        omega
      have hbN : b < en_seq.length := by
        by_contra hbN
        rw [batchStarts_empty _ b (by omega)] at hkpos
        simp at hkpos
      have hkeq : (batchStarts en_seq.length b).length
          = (en_seq.length - b - 1) / b + 1 := by
        rw [batchStarts_eq _ b hb hbN]
        simp
      have hik : r / b < (en_seq.length - b - 1) / b + 1 := by
        rw [← hkeq, Nat.div_lt_iff_lt_mul hb, Nat.mul_comm]
        exact hr
      have hfloor : b * (r / b) ≤ r := by
        rw [Nat.mul_comm]
        exact Nat.div_mul_le_self _ _
      have hceil : r < b * (r / b) + b := by
        have h1 := Nat.div_add_mod r b
        have h2 := Nat.mod_lt r hb
        omega
      refine ⟨((b * (r / b) : Nat) : Int), ?_, by exact_mod_cast hfloor, ?_⟩
      · rw [batchStarts_eq _ b hb hbN]
        exact List.mem_map.mpr ⟨r / b, List.mem_range.mpr hik, rfl⟩
      · have : ((b * (r / b) : Nat) : Int) + (b : Int)
            = ((b * (r / b) + b : Nat) : Int) := by
          push_cast
          ring
        rw [this]
        exact_mod_cast hceil
  · intro hbN
    have hkeq : (batchStarts en_seq.length b).length
        = (en_seq.length - b - 1) / b + 1 := by
      rw [batchStarts_eq _ b hb hbN]
      simp
    have hdiv : b * ((en_seq.length - b - 1) / b) ≤ en_seq.length - b - 1 := by
      rw [Nat.mul_comm]
      exact Nat.div_mul_le_self _ _
    have hexp : b * ((en_seq.length - b - 1) / b + 1)
        = b * ((en_seq.length - b - 1) / b) + b := by ring
    rw [hkeq, hexp]
    omega

/-- Witness for C4 (amended) on a concrete 4-row corpus with
`batch_size = 2`: one epoch performs exactly one batch. -/
theorem claim_C4_batches_witness :
    (train (List.replicate 4 [0]) (List.replicate 4 [0]) 2 1 1 1).length
        = 1 * (batchStarts (List.replicate 4 ([0] : List Nat)).length
            2).length :=
  (claim_C4_batches (List.replicate 4 [0]) (List.replicate 4 [0]) 2 1 1 1
    (by decide) (by decide)).1

end TrainNmt

